import Mathlib

/-
Verification of prbot (main.go): a tool that scans a GitHub repository for
Go source files that are not gofmt-canonical and opens a pull request fixing
them.  The Go program is shallowly embedded below: the remote hosting API,
the raw-blob fetch and the gofmt formatter are external collaborators and are
modelled as oracle parameters; everything else (argument validation, the
candidate-selection loop, the per-candidate worker body, the changeset
aggregation, and the fork/tree/commit/branch/pull-request sequence) is
translated directly from the source.
-/

/-- One entry of a GitHub tree listing (github.TreeEntry).  The Go struct has
pointer-valued fields; `sha`, `size` and `content` are optional here because
the program itself distinguishes their presence (the size filter checks
`te.Size != nil`, and the patched entries it builds leave SHA and Size unset
while setting Content).  `path`, `mode` and `typ` are dereferenced
unconditionally by the program, so they are plain values. -/
structure TreeEntry where
  path : String
  mode : String
  typ : String
  sha : Option String
  size : Option Int
  content : Option String
deriving DecidableEq

/-- Embedding of Go's strings.Split(s, "/") restricted to the single-character
separator the program uses: splitting a character list at every '/'. -/
def splitSlash : List Char → List (List Char)
  | [] => [[]]
  | c :: cs =>
    match splitSlash cs with
    | [] => [[]]
    | p :: ps => if c = '/' then [] :: p :: ps else (c :: p) :: ps

/-- strings.Split(s, "/") on strings. -/
def goSplitOnSlash (s : String) : List String :=
  (splitSlash s.data).map List.asString

/-- Number of '/' characters in a string (used to state the argument-format
property). -/
def countSlash (s : String) : Nat := s.data.count '/'

/-- Embedding of Go's strings.HasSuffix. -/
def hasSuffix (s suffix : String) : Bool :=
  List.isSuffixOf suffix.data s.data

/-- The size guard of the selection loop: `te.Size != nil && *te.Size > 1<<20`
(1048576 = 1<<20). -/
def oversized (te : TreeEntry) : Bool :=
  match te.size with
  | some s => decide (s > 1048576)
  | none => false

/-- One iteration of the candidate-selection loop over tree.Entries:
type must be "blob", the path must end in ".go", and files over 1 MiB are
skipped; eligible entries are appended to goFiles. -/
def selectStep (goFiles : List TreeEntry) (te : TreeEntry) : List TreeEntry :=
  if te.typ == "blob" && hasSuffix te.path ".go" then
    if oversized te then goFiles else goFiles ++ [te]
  else goFiles

/-- The candidate-selection loop of main: fold selectStep over the full
recursive tree listing, starting from the empty goFiles slice. -/
def selectGoFiles (entries : List TreeEntry) : List TreeEntry :=
  entries.foldl selectStep []

/-- Eligibility as the specification states it: entry-type "blob", path ending
in ".go", and size unknown or at most 1 MiB (1048576 = 1<<20 bytes). -/
def eligibleSpec (te : TreeEntry) : Bool :=
  te.typ == "blob" && hasSuffix te.path ".go" &&
    match te.size with
    | none => true
    | some s => decide (s ≤ 1048576)

theorem eligibleSpec_eq (te : TreeEntry) :
    eligibleSpec te =
      ((te.typ == "blob" && hasSuffix te.path ".go") && !oversized te) := by
  unfold eligibleSpec oversized
  cases te.size with
  | none => rfl
  | some s =>
    have h : decide (s ≤ 1048576) = !decide ((1048576 : Int) < s) := by
      rw [← decide_not]
      exact decide_eq_decide.mpr not_lt.symm
    simp only [h]

theorem selectStep_eq (goFiles : List TreeEntry) (te : TreeEntry) :
    selectStep goFiles te =
      if eligibleSpec te then goFiles ++ [te] else goFiles := by
  rw [eligibleSpec_eq]
  unfold selectStep
  cases hA : (te.typ == "blob" && hasSuffix te.path ".go") <;>
    cases ho : oversized te <;> simp [hA, ho]

theorem selectGoFiles_foldl (entries : List TreeEntry) (acc : List TreeEntry) :
    entries.foldl selectStep acc = acc ++ entries.filter eligibleSpec := by
  induction entries generalizing acc with
  | nil => simp
  | cons te rest ih =>
    rw [List.foldl_cons, ih, selectStep_eq]
    by_cases h : eligibleSpec te = true <;> simp [h, List.filter_cons]

/-- C1: the candidate list produced by the selector is exactly the subsequence
of the tree listing consisting of the entries whose type is "blob", whose path
ends with ".go", and whose size is unknown or at most 1 MiB — each such entry
exactly once, in the original order, and nothing else. -/
theorem selectGoFiles_spec (entries : List TreeEntry) :
    selectGoFiles entries = entries.filter eligibleSpec ∧
    List.Sublist (selectGoFiles entries) entries := by
  have h : selectGoFiles entries = entries.filter eligibleSpec := by
    unfold selectGoFiles
    rw [selectGoFiles_foldl]
    simp
  exact ⟨h, h ▸ List.filter_sublist entries⟩

/-- The patched entry the worker appends on a change: path, mode and type are
copied from the candidate, Content is set to the formatted source, and SHA and
Size are left unset (github.TreeEntry{Path, Mode, Type, Content}). -/
def patchedOf (base : TreeEntry) (newContents : String) : TreeEntry :=
  { path := base.path, mode := base.mode, typ := base.typ,
    sha := none, size := none, content := some newContents }

/-- The body of one worker goroutine, for one candidate.  `fetch` is the
rawBlob call (network, an oracle: the raw bytes of the candidate's blob or an
error) and `fmtSource` is go/format.Source (the external formatter collaborator:
canonical bytes or a syntax error).  On fetch failure or formatter failure the
candidate is abandoned; if the formatted output equals the input nothing is
recorded; otherwise the patched entry is produced for the changeset. -/
def processCandidate (fetch : TreeEntry → Except String String)
    (fmtSource : String → Except String String) (te : TreeEntry) :
    Option TreeEntry :=
  match fetch te with
  | Except.error _ => none
  | Except.ok inp =>
    match fmtSource inp with
    | Except.error _ => none
    | Except.ok out => if inp = out then none else some (patchedOf te out)

/-- The fan-out/fan-in worker pool: every candidate is processed by its own
worker and the produced patched entries are collected into the shared changes
slice (mutex-guarded appends; membership is order-insensitive, and this
sequentialization keeps candidate order). -/
def runWorkerPool (fetch : TreeEntry → Except String String)
    (fmtSource : String → Except String String)
    (candidates : List TreeEntry) : List TreeEntry :=
  candidates.filterMap (processCandidate fetch fmtSource)

/-- The diagnostic line the worker logs when the raw-blob fetch fails:
log.Printf("Fetching blob (%s): %v", abbr, err) with
abbr = fmt.Sprintf("%s %.7s", *te.Path, *te.SHA). -/
def fetchFailureLog (te : TreeEntry) (errMsg : String) : String :=
  "Fetching blob (" ++ te.path ++ " " ++ (te.sha.getD "").take 7 ++ "): " ++ errMsg

/-- A fetch oracle that fails deterministically for one specific candidate and
behaves like `fetch` elsewhere (the isolation-test collaborator). -/
def failFetchAt (fetch : TreeEntry → Except String String) (x : TreeEntry)
    (msg : String) : TreeEntry → Except String String :=
  fun te => if te = x then Except.error msg else fetch te

/-- C2: a patched entry is produced for a candidate iff the fetch succeeds, the
formatter succeeds, and the formatter's output differs from the raw bytes; the
produced entry copies path and mode, carries the canonical bytes as content,
and has no content-hash; when the canonical bytes equal the raw bytes nothing
is recorded; and the pool appends exactly that entry for the candidate. -/
theorem processCandidate_spec (fetch : TreeEntry → Except String String)
    (fmtSource : String → Except String String) (te : TreeEntry) :
    (∀ msg, fetch te = Except.error msg →
      processCandidate fetch fmtSource te = none) ∧
    (∀ inp msg, fetch te = Except.ok inp → fmtSource inp = Except.error msg →
      processCandidate fetch fmtSource te = none) ∧
    (∀ inp, fetch te = Except.ok inp → fmtSource inp = Except.ok inp →
      processCandidate fetch fmtSource te = none) ∧
    (∀ inp out, fetch te = Except.ok inp → fmtSource inp = Except.ok out →
      out ≠ inp →
      processCandidate fetch fmtSource te = some (patchedOf te out) ∧
      (patchedOf te out).path = te.path ∧ (patchedOf te out).mode = te.mode ∧
      (patchedOf te out).content = some out ∧ (patchedOf te out).sha = none) ∧
    ((processCandidate fetch fmtSource te).isSome = true ↔
      ∃ inp out, fetch te = Except.ok inp ∧ fmtSource inp = Except.ok out ∧
        out ≠ inp) ∧
    (∀ l, runWorkerPool fetch fmtSource (l ++ [te]) =
      runWorkerPool fetch fmtSource l ++
        (processCandidate fetch fmtSource te).toList) := by
  refine ⟨?_, ?_, ?_, ?_, ?_, ?_⟩
  · intro msg h
    simp [processCandidate, h]
  · intro inp msg h1 h2
    simp [processCandidate, h1, h2]
  · intro inp h1 h2
    simp [processCandidate, h1, h2]
  · intro inp out h1 h2 hne
    refine ⟨?_, rfl, rfl, rfl, rfl⟩
    simp [processCandidate, h1, h2, Ne.symm hne]
  · constructor
    · intro h
      cases hf : fetch te with
      | error m => simp [processCandidate, hf] at h
      | ok inp =>
        cases hm : fmtSource inp with
        | error m => simp [processCandidate, hf, hm] at h
        | ok out =>
          by_cases he : inp = out
          · subst he
            simp [processCandidate, hf, hm] at h
          · exact ⟨inp, out, rfl, hm, fun hc => he hc.symm⟩
    · rintro ⟨inp, out, h1, h2, hne⟩
      simp [processCandidate, h1, h2, Ne.symm hne]
  · intro l
    unfold runWorkerPool
    rw [List.filterMap_append]
    cases h : processCandidate fetch fmtSource te <;>
      simp [List.filterMap_cons, h]

/-- C9: every entry ever appended to the changeset has content present and
content-hash absent, and copies path, mode and type from some candidate; and
the changeset never holds more entries than there are candidates.  (This holds
for every candidate list, hence for every prefix of the fan-out, i.e. at every
point of the aggregation.) -/
theorem changeset_invariant (fetch : TreeEntry → Except String String)
    (fmtSource : String → Except String String)
    (candidates : List TreeEntry) :
    (∀ e ∈ runWorkerPool fetch fmtSource candidates,
      e.content ≠ none ∧ e.sha = none ∧
      ∃ te ∈ candidates, e.path = te.path ∧ e.mode = te.mode ∧
        e.typ = te.typ) ∧
    (runWorkerPool fetch fmtSource candidates).length ≤ candidates.length := by
  constructor
  · intro e he
    rw [runWorkerPool, List.mem_filterMap] at he
    obtain ⟨te, hte, hpc⟩ := he
    cases hf : fetch te with
    | error m => simp [processCandidate, hf] at hpc
    | ok inp =>
      cases hm : fmtSource inp with
      | error m => simp [processCandidate, hf, hm] at hpc
      | ok out =>
        by_cases he2 : inp = out
        · subst he2
          simp [processCandidate, hf, hm] at hpc
        · simp only [processCandidate, hf, hm, if_neg he2,
            Option.some.injEq] at hpc
          obtain rfl : patchedOf te out = e := hpc
          exact ⟨by simp [patchedOf], by simp [patchedOf],
            te, hte, by simp [patchedOf], by simp [patchedOf],
            by simp [patchedOf]⟩
  · exact List.length_filterMap_le _ _

/-- The identity of the fork returned by Repositories.CreateFork (the fields
the program reads: fork.Owner.Login, fork.Name, fork.HTMLURL). -/
structure ForkInfo where
  ownerLogin : String
  name : String
  htmlUrl : String
deriving DecidableEq

/-- The commit object passed to Git.CreateCommit: message, tree SHA and parent
SHAs. -/
structure CommitReq where
  message : String
  treeSha : String
  parents : List String
deriving DecidableEq

/-- The reference object passed to Git.CreateRef: ref name and the commit
object it points at. -/
structure RefReq where
  ref : String
  objType : String
  objSha : String
deriving DecidableEq

/-- The github.NewPullRequest object passed to PullRequests.Create. -/
structure PullReq where
  title : String
  head : String
  base : String
  body : String
deriving DecidableEq

/-- One call the program makes against the hosting API, with the arguments it
passes (reads first, then the five object-creating writes). -/
inductive RemoteCall where
  | getRef (owner repo refName : String)
  | getTree (owner repo sha : String) (recursive : Bool)
  | getRawBlob (owner repo sha : String)
  | createFork (owner repo : String)
  | createTree (owner repo baseSha : String) (entries : List TreeEntry)
  | createCommit (owner repo : String) (req : CommitReq)
  | createRef (owner repo : String) (req : RefReq)
  | createPullRequest (owner repo : String) (req : PullReq)
deriving DecidableEq

/-- Whether a call creates a remote object (fork, tree, commit, branch or
pull request), as opposed to a read. -/
def RemoteCall.isWrite : RemoteCall → Bool
  | RemoteCall.getRef _ _ _ => false
  | RemoteCall.getTree _ _ _ _ => false
  | RemoteCall.getRawBlob _ _ _ => false
  | _ => true

def RemoteCall.isCreateTree : RemoteCall → Bool
  | RemoteCall.createTree _ _ _ _ => true
  | _ => false

def RemoteCall.isCreateCommit : RemoteCall → Bool
  | RemoteCall.createCommit _ _ _ => true
  | _ => false

def RemoteCall.isCreatePullRequest : RemoteCall → Bool
  | RemoteCall.createPullRequest _ _ _ => true
  | _ => false

/-- Responses of the write half of the hosting API (the external collaborator):
each operation either succeeds with the identifier the program reads from the
response, or fails. -/
structure RemoteApi where
  createFork : String → String → Option ForkInfo
  createTree : String → String → String → List TreeEntry → Option String
  createCommit : String → String → CommitReq → Option String
  createRef : String → String → RefReq → Option Unit
  createPullRequest : String → String → PullReq → Option String

/-- How a run that reached the assembler ends: log.Fatalf at a failed step, or
the pull-request URL printed at the end of main. -/
inductive Outcome where
  | fatalError (step : String)
  | prCreated (url : String)
deriving DecidableEq

/-- The exit status of the process (log.Fatalf and os.Exit(1) are non-zero;
falling off the end of main is zero). -/
inductive ExitStatus where
  | success
  | failure
deriving DecidableEq

def targetBranch : String := "master"

def branchName : String := "prbot-gofmt"

def commitMessage : String := "Run gofmt over Go source files."

def prTitle : String := "gofmt everything"

def prBody : String := "I ran gofmt over this repository using prbot, an automated tool."

/-- The changeset-to-PR sequence of main, from "Creating fork ..." to the end:
fork, then tree (base = the original tree SHA, overrides = changes), then
commit (fixed message, new tree, single parent = the original commit), then
branch refs/heads/prbot-gofmt at the new commit, then the pull request on the
original repository.  Returns the calls issued (a failed call is still
issued) and the outcome; any failure is fatal and stops the sequence. -/
def assembler (api : RemoteApi) (owner repo origCommit treeSha : String)
    (changes : List TreeEntry) : List RemoteCall × Outcome :=
  let forkCall := RemoteCall.createFork owner repo
  match api.createFork owner repo with
  | none => ([forkCall], Outcome.fatalError "Creating fork")
  | some fork =>
    let treeCall := RemoteCall.createTree fork.ownerLogin fork.name treeSha changes
    match api.createTree fork.ownerLogin fork.name treeSha changes with
    | none => ([forkCall, treeCall], Outcome.fatalError "Creating tree")
    | some newTreeSha =>
      let commitReq : CommitReq :=
        { message := commitMessage, treeSha := newTreeSha,
          parents := [origCommit] }
      let commitCall := RemoteCall.createCommit fork.ownerLogin fork.name commitReq
      match api.createCommit fork.ownerLogin fork.name commitReq with
      | none =>
        ([forkCall, treeCall, commitCall], Outcome.fatalError "Creating commit")
      | some commitSha =>
        let refReq : RefReq :=
          { ref := "refs/heads/" ++ branchName, objType := "commit",
            objSha := commitSha }
        let refCall := RemoteCall.createRef fork.ownerLogin fork.name refReq
        match api.createRef fork.ownerLogin fork.name refReq with
        | none =>
          ([forkCall, treeCall, commitCall, refCall],
            Outcome.fatalError "Creating branch")
        | some _ =>
          let prReq : PullReq :=
            { title := prTitle, head := fork.ownerLogin ++ ":" ++ branchName,
              base := targetBranch, body := prBody }
          let prCall := RemoteCall.createPullRequest owner repo prReq
          match api.createPullRequest owner repo prReq with
          | none =>
            ([forkCall, treeCall, commitCall, refCall, prCall],
              Outcome.fatalError "Creating pull request")
          | some url =>
            ([forkCall, treeCall, commitCall, refCall, prCall],
              Outcome.prCreated url)

/-- The result of argument validation at the top of main. -/
inductive ArgParse where
  | usageExit
  | proceed (owner repo : String)
deriving DecidableEq

/-- Argument validation: exactly one positional argument, split on "/" into
exactly two parts (usage text and os.Exit(1) otherwise). -/
def validateArgs (args : List String) : ArgParse :=
  if args.length ≠ 1 then ArgParse.usageExit
  else
    match goSplitOnSlash (args.headD "") with
    | [owner, repo] => ArgParse.proceed owner repo
    | _ => ArgParse.usageExit

/-- The whole of main, over oracles for everything external: positional
arguments, the token file read, the GetRef response (object type and SHA),
the GetTree response (tree SHA and entries), the per-candidate raw-blob fetch,
the formatter, and the write API.  Returns the remote calls made in order, the
exit status, and the pull-request URL the run reports (none when it exits
early or reports "no changes"). -/
def prbotMain (args : List String) (token : Option String)
    (refResp : Option (String × String))
    (treeResp : Option (String × List TreeEntry))
    (fetch : TreeEntry → Except String String)
    (fmtSource : String → Except String String)
    (api : RemoteApi) : List RemoteCall × ExitStatus × Option String :=
  match validateArgs args with
  | ArgParse.usageExit => ([], ExitStatus.failure, none)
  | ArgParse.proceed owner repo =>
    match token with
    | none => ([], ExitStatus.failure, none)
    | some _ =>
      let refCall := RemoteCall.getRef owner repo ("refs/heads/" ++ targetBranch)
      match refResp with
      | none => ([refCall], ExitStatus.failure, none)
      | some (objType, origCommit) =>
        if objType ≠ "commit" then ([refCall], ExitStatus.failure, none)
        else
          let treeCall := RemoteCall.getTree owner repo origCommit true
          match treeResp with
          | none => ([refCall, treeCall], ExitStatus.failure, none)
          | some (treeSha, entries) =>
            let goFiles := selectGoFiles entries
            let blobCalls := goFiles.map fun te =>
              RemoteCall.getRawBlob owner repo (te.sha.getD "")
            let changes := runWorkerPool fetch fmtSource goFiles
            if changes.length = 0 then
              ([refCall, treeCall] ++ blobCalls, ExitStatus.success, none)
            else
              let writes := (assembler api owner repo origCommit treeSha changes).1
              match (assembler api owner repo origCommit treeSha changes).2 with
              | Outcome.fatalError _ =>
                ([refCall, treeCall] ++ blobCalls ++ writes,
                  ExitStatus.failure, none)
              | Outcome.prCreated url =>
                ([refCall, treeCall] ++ blobCalls ++ writes,
                  ExitStatus.success, some url)

theorem prbotMain_empty_pool (args : List String)
    (tok owner repo origCommit treeSha : String) (entries : List TreeEntry)
    (fetch : TreeEntry → Except String String)
    (fmtSource : String → Except String String) (api : RemoteApi)
    (hargs : validateArgs args = ArgParse.proceed owner repo)
    (hpool : runWorkerPool fetch fmtSource (selectGoFiles entries) = []) :
    prbotMain args (some tok) (some ("commit", origCommit))
        (some (treeSha, entries)) fetch fmtSource api =
      (RemoteCall.getRef owner repo ("refs/heads/" ++ targetBranch) ::
        RemoteCall.getTree owner repo origCommit true ::
        (selectGoFiles entries).map
          (fun te => RemoteCall.getRawBlob owner repo (te.sha.getD "")),
       ExitStatus.success, none) := by
  unfold prbotMain
  rw [hargs]
  simp [hpool]

theorem prbotMain_nonempty_pool (args : List String)
    (tok owner repo origCommit treeSha : String) (entries : List TreeEntry)
    (fetch : TreeEntry → Except String String)
    (fmtSource : String → Except String String) (api : RemoteApi)
    (hargs : validateArgs args = ArgParse.proceed owner repo)
    (hne : runWorkerPool fetch fmtSource (selectGoFiles entries) ≠ []) :
    prbotMain args (some tok) (some ("commit", origCommit))
        (some (treeSha, entries)) fetch fmtSource api =
      (RemoteCall.getRef owner repo ("refs/heads/" ++ targetBranch) ::
        RemoteCall.getTree owner repo origCommit true ::
        ((selectGoFiles entries).map
          (fun te => RemoteCall.getRawBlob owner repo (te.sha.getD "")) ++
         (assembler api owner repo origCommit treeSha
           (runWorkerPool fetch fmtSource (selectGoFiles entries))).1),
       match (assembler api owner repo origCommit treeSha
           (runWorkerPool fetch fmtSource (selectGoFiles entries))).2 with
       | Outcome.fatalError _ => ExitStatus.failure
       | Outcome.prCreated _ => ExitStatus.success,
       match (assembler api owner repo origCommit treeSha
           (runWorkerPool fetch fmtSource (selectGoFiles entries))).2 with
       | Outcome.fatalError _ => none
       | Outcome.prCreated url => some url) := by
  unfold prbotMain
  rw [hargs]
  have hlen : (runWorkerPool fetch fmtSource (selectGoFiles entries)).length ≠ 0 := by
    simpa [List.length_eq_zero] using hne
  cases ho : (assembler api owner repo origCommit treeSha
      (runWorkerPool fetch fmtSource (selectGoFiles entries))).2 <;>
    simp [hlen, ho]

theorem assembler_filter_createTree (api : RemoteApi)
    (owner repo origCommit treeSha : String) (changes : List TreeEntry)
    (fork : ForkInfo) (hfork : api.createFork owner repo = some fork) :
    (assembler api owner repo origCommit treeSha changes).1.filter
        RemoteCall.isCreateTree =
      [RemoteCall.createTree fork.ownerLogin fork.name treeSha changes] := by
  unfold assembler
  rw [hfork]
  cases h2 : api.createTree fork.ownerLogin fork.name treeSha changes with
  | none => simp [h2, RemoteCall.isCreateTree]
  | some newTreeSha =>
    cases h3 : api.createCommit fork.ownerLogin fork.name
        { message := commitMessage, treeSha := newTreeSha,
          parents := [origCommit] } with
    | none => simp [h2, h3, RemoteCall.isCreateTree]
    | some commitSha =>
      cases h4 : api.createRef fork.ownerLogin fork.name
          { ref := "refs/heads/" ++ branchName, objType := "commit",
            objSha := commitSha } with
      | none => simp [h2, h3, h4, RemoteCall.isCreateTree]
      | some u =>
        cases h5 : api.createPullRequest owner repo
            { title := prTitle, head := fork.ownerLogin ++ ":" ++ branchName,
              base := targetBranch, body := prBody } with
        | none => simp [h2, h3, h4, h5, RemoteCall.isCreateTree]
        | some url => simp [h2, h3, h4, h5, RemoteCall.isCreateTree]

theorem assembler_filter_createCommit (api : RemoteApi)
    (owner repo origCommit treeSha : String) (changes : List TreeEntry)
    (fork : ForkInfo) (newTreeSha : String)
    (hfork : api.createFork owner repo = some fork)
    (htree : api.createTree fork.ownerLogin fork.name treeSha changes =
      some newTreeSha) :
    (assembler api owner repo origCommit treeSha changes).1.filter
        RemoteCall.isCreateCommit =
      [RemoteCall.createCommit fork.ownerLogin fork.name
        { message := commitMessage, treeSha := newTreeSha,
          parents := [origCommit] }] := by
  unfold assembler
  rw [hfork]
  cases h3 : api.createCommit fork.ownerLogin fork.name
      { message := commitMessage, treeSha := newTreeSha,
        parents := [origCommit] } with
  | none => simp [htree, h3, RemoteCall.isCreateCommit]
  | some commitSha =>
    cases h4 : api.createRef fork.ownerLogin fork.name
        { ref := "refs/heads/" ++ branchName, objType := "commit",
          objSha := commitSha } with
    | none => simp [htree, h3, h4, RemoteCall.isCreateCommit]
    | some u =>
      cases h5 : api.createPullRequest owner repo
          { title := prTitle, head := fork.ownerLogin ++ ":" ++ branchName,
            base := targetBranch, body := prBody } with
      | none => simp [htree, h3, h4, h5, RemoteCall.isCreateCommit]
      | some url => simp [htree, h3, h4, h5, RemoteCall.isCreateCommit]

theorem assembler_success_eq (api : RemoteApi)
    (owner repo origCommit treeSha : String) (changes : List TreeEntry)
    (fork : ForkInfo) (newTreeSha commitSha url : String)
    (hfork : api.createFork owner repo = some fork)
    (htree : api.createTree fork.ownerLogin fork.name treeSha changes =
      some newTreeSha)
    (hcommit : api.createCommit fork.ownerLogin fork.name
      { message := commitMessage, treeSha := newTreeSha,
        parents := [origCommit] } = some commitSha)
    (href : api.createRef fork.ownerLogin fork.name
      { ref := "refs/heads/" ++ branchName, objType := "commit",
        objSha := commitSha } = some ())
    (hpr : api.createPullRequest owner repo
      { title := prTitle, head := fork.ownerLogin ++ ":" ++ branchName,
        base := targetBranch, body := prBody } = some url) :
    assembler api owner repo origCommit treeSha changes =
      ([RemoteCall.createFork owner repo,
        RemoteCall.createTree fork.ownerLogin fork.name treeSha changes,
        RemoteCall.createCommit fork.ownerLogin fork.name
          { message := commitMessage, treeSha := newTreeSha,
            parents := [origCommit] },
        RemoteCall.createRef fork.ownerLogin fork.name
          { ref := "refs/heads/" ++ branchName, objType := "commit",
            objSha := commitSha },
        RemoteCall.createPullRequest owner repo
          { title := prTitle, head := fork.ownerLogin ++ ":" ++ branchName,
            base := targetBranch, body := prBody }],
       Outcome.prCreated url) := by
  unfold assembler
  rw [hfork]
  simp [htree, hcommit, href, hpr]

/-- Modelled from the spec: the hosting service's tree-creation semantics —
the new tree is the base tree with the override entries replacing the entries
at their paths, and entries whose path is not present among the overrides are
inherited unchanged from the base tree. -/
def applyOverrides (base : String → Option TreeEntry)
    (overrides : List TreeEntry) (p : String) : Option TreeEntry :=
  match overrides.find? (fun e => e.path == p) with
  | some e => some e
  | none => base p

theorem applyOverrides_not_mem (base : String → Option TreeEntry)
    (overrides : List TreeEntry) (p : String)
    (hp : p ∉ overrides.map TreeEntry.path) :
    applyOverrides base overrides p = base p := by
  unfold applyOverrides
  have h : overrides.find? (fun e => e.path == p) = none := by
    rw [List.find?_eq_none]
    intro e he
    simp only [beq_iff_eq]
    intro hpe
    exact hp (hpe ▸ List.mem_map_of_mem TreeEntry.path he)
  rw [h]

/-- C3: if the changeset is empty once the worker pool has completed — in
particular whenever every candidate's raw bytes already equal their canonical
form — the workflow exits successfully and issues no remote write: no fork,
tree, commit, branch or pull-request creation call. -/
theorem emptyChangeset_noWrites (args : List String)
    (tok owner repo origCommit treeSha : String) (entries : List TreeEntry)
    (fetch : TreeEntry → Except String String)
    (fmtSource : String → Except String String) (api : RemoteApi)
    (hargs : validateArgs args = ArgParse.proceed owner repo) :
    ((∀ te ∈ selectGoFiles entries, ∀ inp, fetch te = Except.ok inp →
        fmtSource inp = Except.ok inp) →
      runWorkerPool fetch fmtSource (selectGoFiles entries) = []) ∧
    (runWorkerPool fetch fmtSource (selectGoFiles entries) = [] →
      (prbotMain args (some tok) (some ("commit", origCommit))
          (some (treeSha, entries)) fetch fmtSource api).2.1 =
        ExitStatus.success ∧
      (prbotMain args (some tok) (some ("commit", origCommit))
          (some (treeSha, entries)) fetch fmtSource api).1.filter
        RemoteCall.isWrite = []) := by
  constructor
  · intro hcanon
    unfold runWorkerPool
    rw [List.filterMap_eq_nil_iff]
    intro te hte
    cases hf : fetch te with
    | error m => simp [processCandidate, hf]
    | ok inp => simp [processCandidate, hf, hcanon te hte inp hf]
  · intro hpool
    rw [prbotMain_empty_pool args tok owner repo origCommit treeSha entries
      fetch fmtSource api hargs hpool]
    refine ⟨rfl, ?_⟩
    simp only [List.filter_cons, RemoteCall.isWrite]
    rw [List.filter_map]
    simp [Function.comp_def, RemoteCall.isWrite]

/-- C5: with a non-empty changeset, tree creation is invoked exactly once, in
the fork, with the original tree id as base and exactly the changeset's
patched entries as overrides; under the (spec-modelled) hosting semantics of
base-plus-overrides, the resulting tree agrees with the base tree at every
path not present in the changeset. -/
theorem createTree_once_minimal (args : List String)
    (tok owner repo origCommit treeSha : String) (entries : List TreeEntry)
    (fetch : TreeEntry → Except String String)
    (fmtSource : String → Except String String) (api : RemoteApi)
    (fork : ForkInfo)
    (hargs : validateArgs args = ArgParse.proceed owner repo)
    (hne : runWorkerPool fetch fmtSource (selectGoFiles entries) ≠ [])
    (hfork : api.createFork owner repo = some fork) :
    (prbotMain args (some tok) (some ("commit", origCommit))
        (some (treeSha, entries)) fetch fmtSource api).1.filter
      RemoteCall.isCreateTree =
      [RemoteCall.createTree fork.ownerLogin fork.name treeSha
        (runWorkerPool fetch fmtSource (selectGoFiles entries))] ∧
    (∀ (base : String → Option TreeEntry) (p : String),
      p ∉ (runWorkerPool fetch fmtSource (selectGoFiles entries)).map
        TreeEntry.path →
      applyOverrides base (runWorkerPool fetch fmtSource (selectGoFiles entries))
        p = base p) := by
  constructor
  · rw [prbotMain_nonempty_pool args tok owner repo origCommit treeSha entries
      fetch fmtSource api hargs hne]
    simp only [List.filter_cons, List.filter_append, RemoteCall.isCreateTree]
    rw [List.filter_map]
    simp only [Function.comp_def, RemoteCall.isCreateTree, List.filter_false,
      List.map_nil, List.nil_append]
    exact assembler_filter_createTree api owner repo origCommit treeSha _
      fork hfork
  · intro base p hp
    exact applyOverrides_not_mem base _ p hp

/-- C6: the commit created in the fork always carries the fixed message
"Run gofmt over Go source files.", the newly created tree id, and exactly one
parent — the original commit id resolved from the target branch. -/
theorem createCommit_message_parent (args : List String)
    (tok owner repo origCommit treeSha : String) (entries : List TreeEntry)
    (fetch : TreeEntry → Except String String)
    (fmtSource : String → Except String String) (api : RemoteApi)
    (fork : ForkInfo) (newTreeSha : String)
    (hargs : validateArgs args = ArgParse.proceed owner repo)
    (hne : runWorkerPool fetch fmtSource (selectGoFiles entries) ≠ [])
    (hfork : api.createFork owner repo = some fork)
    (htree : api.createTree fork.ownerLogin fork.name treeSha
      (runWorkerPool fetch fmtSource (selectGoFiles entries)) =
      some newTreeSha) :
    (prbotMain args (some tok) (some ("commit", origCommit))
        (some (treeSha, entries)) fetch fmtSource api).1.filter
      RemoteCall.isCreateCommit =
      [RemoteCall.createCommit fork.ownerLogin fork.name
        { message := commitMessage, treeSha := newTreeSha,
          parents := [origCommit] }] ∧
    commitMessage = "Run gofmt over Go source files." := by
  refine ⟨?_, rfl⟩
  rw [prbotMain_nonempty_pool args tok owner repo origCommit treeSha entries
    fetch fmtSource api hargs hne]
  simp only [List.filter_cons, List.filter_append, RemoteCall.isCreateCommit]
  rw [List.filter_map]
  simp only [Function.comp_def, RemoteCall.isCreateCommit, List.filter_false,
    List.map_nil, List.nil_append]
  exact assembler_filter_createCommit api owner repo origCommit treeSha _
    fork newTreeSha hfork htree

/-- C7: the pull request is created on the original repository with head
"forkOwner:prbot-gofmt", base "master", the fixed title and the fixed body,
and its URL is the terminal output of the workflow. -/
theorem pullRequest_head_base (args : List String)
    (tok owner repo origCommit treeSha : String) (entries : List TreeEntry)
    (fetch : TreeEntry → Except String String)
    (fmtSource : String → Except String String) (api : RemoteApi)
    (fork : ForkInfo) (newTreeSha commitSha url : String)
    (hargs : validateArgs args = ArgParse.proceed owner repo)
    (hne : runWorkerPool fetch fmtSource (selectGoFiles entries) ≠ [])
    (hfork : api.createFork owner repo = some fork)
    (htree : api.createTree fork.ownerLogin fork.name treeSha
      (runWorkerPool fetch fmtSource (selectGoFiles entries)) =
      some newTreeSha)
    (hcommit : api.createCommit fork.ownerLogin fork.name
      { message := commitMessage, treeSha := newTreeSha,
        parents := [origCommit] } = some commitSha)
    (href : api.createRef fork.ownerLogin fork.name
      { ref := "refs/heads/" ++ branchName, objType := "commit",
        objSha := commitSha } = some ())
    (hpr : api.createPullRequest owner repo
      { title := prTitle, head := fork.ownerLogin ++ ":" ++ branchName,
        base := targetBranch, body := prBody } = some url) :
    (prbotMain args (some tok) (some ("commit", origCommit))
        (some (treeSha, entries)) fetch fmtSource api).1.filter
      RemoteCall.isCreatePullRequest =
      [RemoteCall.createPullRequest owner repo
        { title := prTitle, head := fork.ownerLogin ++ ":" ++ branchName,
          base := targetBranch, body := prBody }] ∧
    (prbotMain args (some tok) (some ("commit", origCommit))
        (some (treeSha, entries)) fetch fmtSource api).2.2 = some url ∧
    (prbotMain args (some tok) (some ("commit", origCommit))
        (some (treeSha, entries)) fetch fmtSource api).2.1 =
      ExitStatus.success ∧
    branchName = "prbot-gofmt" ∧ targetBranch = "master" ∧
    prTitle = "gofmt everything" ∧
    prBody = "I ran gofmt over this repository using prbot, an automated tool." := by
  have hasm := assembler_success_eq api owner repo origCommit treeSha
    (runWorkerPool fetch fmtSource (selectGoFiles entries)) fork newTreeSha
    commitSha url hfork htree hcommit href hpr
  rw [prbotMain_nonempty_pool args tok owner repo origCommit treeSha entries
    fetch fmtSource api hargs hne]
  rw [hasm]
  refine ⟨?_, rfl, rfl, rfl, rfl, rfl, rfl⟩
  simp only [List.filter_cons, List.filter_append,
    RemoteCall.isCreatePullRequest]
  rw [List.filter_map]
  simp [Function.comp_def, RemoteCall.isCreatePullRequest]

theorem runWorkerPool_failFetchAt (fetch : TreeEntry → Except String String)
    (fmtSource : String → Except String String) (x : TreeEntry) (msg : String)
    (candidates : List TreeEntry) :
    runWorkerPool (failFetchAt fetch x msg) fmtSource candidates =
      runWorkerPool fetch fmtSource
        (candidates.filter fun te => te ≠ x) := by
  induction candidates with
  | nil => rfl
  | cons a l ih =>
    unfold runWorkerPool at ih ⊢
    rw [List.filterMap_cons, List.filter_cons]
    by_cases h : a = x
    · subst h
      have h1 : processCandidate (failFetchAt fetch a msg) fmtSource a = none := by
        simp [processCandidate, failFetchAt]
      simp [h1, ih]
    · have h1 : failFetchAt fetch x msg a = fetch a := by
        simp [failFetchAt, h]
      have h2 : processCandidate (failFetchAt fetch x msg) fmtSource a =
          processCandidate fetch fmtSource a := by
        unfold processCandidate
        rw [h1]
      rw [h2]
      have h3 : (decide (a ≠ x)) = true := by simp [h]
      rw [h3]
      simp only [if_true, List.filterMap_cons]
      cases processCandidate fetch fmtSource a <;> simp [ih]

theorem assembler_success_of_total (api : RemoteApi)
    (owner repo origCommit treeSha : String) (changes : List TreeEntry)
    (h1 : ∀ o r, (api.createFork o r).isSome = true)
    (h2 : ∀ o r b l, (api.createTree o r b l).isSome = true)
    (h3 : ∀ o r c, (api.createCommit o r c).isSome = true)
    (h4 : ∀ o r rr, (api.createRef o r rr).isSome = true)
    (h5 : ∀ o r p, (api.createPullRequest o r p).isSome = true) :
    ∃ url, (assembler api owner repo origCommit treeSha changes).2 =
      Outcome.prCreated url := by
  obtain ⟨fork, hf⟩ := Option.isSome_iff_exists.mp (h1 owner repo)
  obtain ⟨newTreeSha, ht⟩ := Option.isSome_iff_exists.mp
    (h2 fork.ownerLogin fork.name treeSha changes)
  obtain ⟨commitSha, hc⟩ := Option.isSome_iff_exists.mp
    (h3 fork.ownerLogin fork.name
      { message := commitMessage, treeSha := newTreeSha,
        parents := [origCommit] })
  obtain ⟨u, hr⟩ := Option.isSome_iff_exists.mp
    (h4 fork.ownerLogin fork.name
      { ref := "refs/heads/" ++ branchName, objType := "commit",
        objSha := commitSha })
  obtain ⟨url, hp⟩ := Option.isSome_iff_exists.mp
    (h5 owner repo
      { title := prTitle, head := fork.ownerLogin ++ ":" ++ branchName,
        base := targetBranch, body := prBody })
  refine ⟨url, ?_⟩
  unfold assembler
  rw [hf]
  simp [ht, hc, hr, hp]

/-- C4: a fetch failure for one candidate is isolated.  Failing the fetch of
candidate x drops exactly x (after the "Fetching blob" diagnostic carrying its
path and the 7-character content-hash abbreviation), leaves every other
candidate's processing unchanged, makes the pool result equal to the pool run
without x, and — whenever the remote write API itself succeeds — the workflow
still exits successfully, so a per-candidate failure never aborts the run or
changes its exit status. -/
theorem candidateFailure_isolated (fetch : TreeEntry → Except String String)
    (fmtSource : String → Except String String)
    (candidates : List TreeEntry) (x : TreeEntry) (msg : String) :
    processCandidate (failFetchAt fetch x msg) fmtSource x = none ∧
    fetchFailureLog x msg =
      "Fetching blob (" ++ x.path ++ " " ++ (x.sha.getD "").take 7 ++ "): "
        ++ msg ∧
    (∀ te, te ≠ x →
      processCandidate (failFetchAt fetch x msg) fmtSource te =
        processCandidate fetch fmtSource te) ∧
    runWorkerPool (failFetchAt fetch x msg) fmtSource candidates =
      runWorkerPool fetch fmtSource (candidates.filter fun te => te ≠ x) ∧
    (∀ (args : List String) (tok owner repo origCommit treeSha : String)
        (entries : List TreeEntry) (api : RemoteApi),
      validateArgs args = ArgParse.proceed owner repo →
      (∀ o r, (api.createFork o r).isSome = true) →
      (∀ o r b l, (api.createTree o r b l).isSome = true) →
      (∀ o r c, (api.createCommit o r c).isSome = true) →
      (∀ o r rr, (api.createRef o r rr).isSome = true) →
      (∀ o r p, (api.createPullRequest o r p).isSome = true) →
      (prbotMain args (some tok) (some ("commit", origCommit))
          (some (treeSha, entries)) (failFetchAt fetch x msg) fmtSource
          api).2.1 = ExitStatus.success) := by
  refine ⟨?_, rfl, ?_, runWorkerPool_failFetchAt fetch fmtSource x msg candidates, ?_⟩
  · simp [processCandidate, failFetchAt]
  · intro te hte
    unfold processCandidate
    rw [show failFetchAt fetch x msg te = fetch te by simp [failFetchAt, hte]]
  · intro args tok owner repo origCommit treeSha entries api hargs
      h1 h2 h3 h4 h5
    by_cases hpool : runWorkerPool (failFetchAt fetch x msg) fmtSource
        (selectGoFiles entries) = []
    · rw [prbotMain_empty_pool args tok owner repo origCommit treeSha entries
        (failFetchAt fetch x msg) fmtSource api hargs hpool]
    · rw [prbotMain_nonempty_pool args tok owner repo origCommit treeSha entries
        (failFetchAt fetch x msg) fmtSource api hargs hpool]
      obtain ⟨url, hurl⟩ := assembler_success_of_total api owner repo origCommit
        treeSha (runWorkerPool (failFetchAt fetch x msg) fmtSource
          (selectGoFiles entries)) h1 h2 h3 h4 h5
      simp [hurl]

theorem splitSlash_ne_nil (l : List Char) : splitSlash l ≠ [] := by
  cases l with
  | nil => simp [splitSlash]
  | cons c cs =>
    unfold splitSlash
    cases h : splitSlash cs with
    | nil => simp
    | cons p ps => by_cases hc : c = '/' <;> simp [hc]

theorem splitSlash_length (l : List Char) :
    (splitSlash l).length = l.count '/' + 1 := by
  induction l with
  | nil => rfl
  | cons c cs ih =>
    unfold splitSlash
    cases h : splitSlash cs with
    | nil => exact absurd h (splitSlash_ne_nil cs)
    | cons p ps =>
      rw [h] at ih
      simp only [List.length_cons] at ih
      by_cases hc : c = '/' <;> simp [hc, List.count_cons] <;> omega

theorem validateArgs_single (a : String) (h : countSlash a ≠ 1) :
    validateArgs [a] = ArgParse.usageExit := by
  have hlen : (goSplitOnSlash a).length ≠ 2 := by
    unfold goSplitOnSlash
    rw [List.length_map, splitSlash_length]
    unfold countSlash at h
    omega
  unfold validateArgs
  cases hs : goSplitOnSlash a with
  | nil => simp [hs]
  | cons o t =>
    cases t with
    | nil => simp [hs]
    | cons r t2 =>
      cases t2 with
      | nil => exact absurd (by rw [hs]; rfl) hlen
      | cons z t3 => simp [hs]

/-- C8: invoking the program with zero positional arguments, or with one
argument that does not contain exactly one '/', exits non-zero with usage
text before reading the credential and before any remote call: the run makes
no network call at all, regardless of every oracle. -/
theorem usageError_noNetwork (args : List String) (token : Option String)
    (refResp : Option (String × String))
    (treeResp : Option (String × List TreeEntry))
    (fetch : TreeEntry → Except String String)
    (fmtSource : String → Except String String) (api : RemoteApi)
    (h : args = [] ∨ ∃ a, args = [a] ∧ countSlash a ≠ 1) :
    prbotMain args token refResp treeResp fetch fmtSource api =
      ([], ExitStatus.failure, none) := by
  have hv : validateArgs args = ArgParse.usageExit := by
    rcases h with h | ⟨a, ha, hc⟩
    · subst h
      rfl
    · subst ha
      exact validateArgs_single a hc
  simp [prbotMain, hv]

theorem splitSlash_no_slash (l : List Char) (h : '/' ∉ l) :
    splitSlash l = [l] := by
  induction l with
  | nil => rfl
  | cons c cs ih =>
    have hc : c ≠ '/' := fun hcq => h (hcq ▸ List.mem_cons_self c cs)
    have hcs : '/' ∉ cs := fun hm => h (List.mem_cons_of_mem c hm)
    unfold splitSlash
    rw [ih hcs]
    simp [hc]

theorem splitSlash_append (l₁ l₂ : List Char) (h1 : '/' ∉ l₁)
    (h2 : '/' ∉ l₂) : splitSlash (l₁ ++ '/' :: l₂) = [l₁, l₂] := by
  induction l₁ with
  | nil =>
    rw [List.nil_append]
    unfold splitSlash
    rw [splitSlash_no_slash l₂ h2]
    simp
  | cons c cs ih =>
    have hc : c ≠ '/' := fun hcq => h1 (hcq ▸ List.mem_cons_self c cs)
    have hcs : '/' ∉ cs := fun hm => h1 (List.mem_cons_of_mem c hm)
    rw [List.cons_append]
    unfold splitSlash
    rw [ih hcs]
    simp [hc]

theorem goSplitOnSlash_one_slash (o r : String)
    (ho : countSlash o = 0) (hr : countSlash r = 0) :
    goSplitOnSlash (o ++ "/" ++ r) = [o, r] := by
  unfold countSlash at ho hr
  rw [List.count_eq_zero] at ho hr
  unfold goSplitOnSlash
  rw [show (o ++ "/" ++ r).data = o.data ++ '/' :: r.data by
    simp [String.data_append]]
  rw [splitSlash_append o.data r.data ho hr]
  rfl

/-- C10: every argument made of a slash-free owner component and a slash-free
repository component joined by one '/' — in particular one whose owner or
repository component is empty — contains exactly one '/', passes argument
validation, and the program proceeds with those components (the empty string
included) as the owner and repository names. -/
theorem emptyComponent_passes (o r : String)
    (ho : countSlash o = 0) (hr : countSlash r = 0)
    (_he : o = "" ∨ r = "") :
    countSlash (o ++ "/" ++ r) = 1 ∧
    validateArgs [o ++ "/" ++ r] = ArgParse.proceed o r := by
  constructor
  · unfold countSlash at ho hr ⊢
    rw [show (o ++ "/" ++ r).data = o.data ++ '/' :: r.data by
      simp [String.data_append]]
    simp [List.count_append, List.count_cons, ho, hr]
  · unfold validateArgs
    rw [show ([o ++ "/" ++ r].headD "") = o ++ "/" ++ r from rfl]
    rw [goSplitOnSlash_one_slash o r ho hr]
    rfl

theorem emptyComponent_passes_witness :
    countSlash "owner/" = 1 ∧
    validateArgs ["owner/"] = ArgParse.proceed "owner" "" :=
  emptyComponent_passes "owner" "" (by decide) (by decide) (Or.inr rfl)

/-- A sample candidate entry for the concrete instantiations below. -/
def teGo : TreeEntry :=
  { path := "a.go", mode := "100644", typ := "blob",
    sha := some "abcdef0123", size := some 10, content := none }

/-- A fetch oracle that returns the same raw bytes for every candidate. -/
def fetchConst (s : String) : TreeEntry → Except String String :=
  fun _ => Except.ok s

/-- A formatter oracle that reports every input as already canonical. -/
def fmtId : String → Except String String := fun s => Except.ok s

/-- A formatter oracle with a constant canonical form. -/
def fmtConst (s : String) : String → Except String String :=
  fun _ => Except.ok s

/-- A sample fork identity. -/
def forkBot : ForkInfo := { ownerLogin := "bot", name := "repo", htmlUrl := "u" }

/-- A write API for which every operation succeeds. -/
def apiOk : RemoteApi :=
  { createFork := fun _ _ => some forkBot,
    createTree := fun _ _ _ _ => some "t1",
    createCommit := fun _ _ _ => some "c1",
    createRef := fun _ _ _ => some (),
    createPullRequest := fun _ _ _ => some "http" }

/-- A write API for which every operation fails. -/
def apiNone : RemoteApi :=
  { createFork := fun _ _ => none,
    createTree := fun _ _ _ _ => none,
    createCommit := fun _ _ _ => none,
    createRef := fun _ _ _ => none,
    createPullRequest := fun _ _ _ => none }

theorem processCandidate_spec_witness :
    processCandidate (fetchConst "x") fmtId teGo = none :=
  (processCandidate_spec (fetchConst "x") fmtId teGo).2.2.1 "x" rfl rfl

theorem changeset_invariant_witness :
    (runWorkerPool (fetchConst "x") fmtId [teGo]).length ≤ [teGo].length :=
  (changeset_invariant (fetchConst "x") fmtId [teGo]).2

theorem emptyChangeset_noWrites_witness :
    (prbotMain ["o/r"] (some "t") (some ("commit", "c0"))
        (some ("t0", [teGo])) (fetchConst "x") fmtId apiNone).2.1 =
      ExitStatus.success :=
  ((emptyChangeset_noWrites ["o/r"] "t" "o" "r" "c0" "t0" [teGo]
      (fetchConst "x") fmtId apiNone (by decide)).2 (by decide)).1

theorem candidateFailure_isolated_witness :
    processCandidate (failFetchAt (fetchConst "x") teGo "boom") fmtId teGo =
      none :=
  (candidateFailure_isolated (fetchConst "x") fmtId [teGo] teGo "boom").1

theorem createTree_once_minimal_witness :
    (prbotMain ["o/r"] (some "t") (some ("commit", "c0"))
        (some ("t0", [teGo])) (fetchConst "a") (fmtConst "b") apiOk).1.filter
      RemoteCall.isCreateTree =
      [RemoteCall.createTree "bot" "repo" "t0"
        (runWorkerPool (fetchConst "a") (fmtConst "b")
          (selectGoFiles [teGo]))] :=
  (createTree_once_minimal ["o/r"] "t" "o" "r" "c0" "t0" [teGo]
      (fetchConst "a") (fmtConst "b") apiOk forkBot (by decide) (by decide)
      rfl).1

theorem createCommit_message_parent_witness :
    (prbotMain ["o/r"] (some "t") (some ("commit", "c0"))
        (some ("t0", [teGo])) (fetchConst "a") (fmtConst "b") apiOk).1.filter
      RemoteCall.isCreateCommit =
      [RemoteCall.createCommit "bot" "repo"
        { message := commitMessage, treeSha := "t1", parents := ["c0"] }] :=
  (createCommit_message_parent ["o/r"] "t" "o" "r" "c0" "t0" [teGo]
      (fetchConst "a") (fmtConst "b") apiOk forkBot "t1" (by decide)
      (by decide) rfl rfl).1

theorem pullRequest_head_base_witness :
    (prbotMain ["o/r"] (some "t") (some ("commit", "c0"))
        (some ("t0", [teGo])) (fetchConst "a") (fmtConst "b") apiOk).2.2 =
      some "http" :=
  (pullRequest_head_base ["o/r"] "t" "o" "r" "c0" "t0" [teGo]
      (fetchConst "a") (fmtConst "b") apiOk forkBot "t1" "c1" "http"
      (by decide) (by decide) rfl rfl rfl rfl rfl).2.1

theorem usageError_noNetwork_witness :
    prbotMain [] none none none (fun _ => Except.error "e")
        (fun _ => Except.error "e") apiNone = ([], ExitStatus.failure, none) :=
  usageError_noNetwork [] none none none (fun _ => Except.error "e")
    (fun _ => Except.error "e") apiNone (Or.inl rfl)
